import Mathlib

/-!
Verification of the FluidCB trace analyzer core (src/trace-analyzer.ts).

The embedding models JavaScript numbers as `Option ℚ`: `some q` is an
ordinary (exact) numeric value and `none` models `NaN`, which propagates
through arithmetic and makes every comparison false, as in JavaScript.
Binary floating point rounding, `Infinity` and negative zero are outside
the scope of this model; all concrete inputs considered are exact in
both systems.  `Math.round` (round half toward positive infinity) is
modelled on rationals, and the string bucket keys built by the source
(template literals over two rounded integers) are modelled as pairs of
integers, which is injective exactly as the string form is.
-/

/-- JavaScript number: `none` models NaN. -/
abbrev JSNum := Option ℚ

/-- Addition with NaN propagation. -/
def jadd : JSNum → JSNum → JSNum
  | some a, some b => some (a + b)
  | _, _ => none

/-- Subtraction with NaN propagation. -/
def jsub : JSNum → JSNum → JSNum
  | some a, some b => some (a - b)
  | _, _ => none

/-- Multiplication with NaN propagation. -/
def jmul : JSNum → JSNum → JSNum
  | some a, some b => some (a * b)
  | _, _ => none

/-- Division by an ordinary (non-NaN, nonzero) rational. -/
def jdivQ (a : JSNum) (d : ℚ) : JSNum := a.map (fun q => q / d)

/-- Math.abs, NaN-propagating. -/
def jabs (a : JSNum) : JSNum := a.map (fun q => |q|)

/-- The JavaScript comparison a > b: false whenever either side is NaN. -/
def jgt (a b : JSNum) : Bool :=
  match a, b with
  | some x, some y => decide (y < x)
  | _, _ => false

/-- A 2D point with JavaScript-number coordinates. -/
structure Point where
  x : JSNum
  y : JSNum
deriving DecidableEq

/-- A parsed path command: the command letter, its point list and its
relative flag, exactly the PathCommand record of the source. -/
structure PathCommand where
  type : Char
  points : List Point
  isRelative : Bool
deriving DecidableEq

/-- The command letters recognized by the tokenizer regex character class. -/
def cmdLetters : List Char :=
  ['M','L','H','V','C','S','Q','T','A','Z','m','l','h','v','c','s','q','t','a','z']

/-- Whether a character is a path command letter. -/
def isCmdLetter (c : Char) : Bool := cmdLetters.contains c

/-- A lowercase command letter marks a relative command. -/
def isRelLetter (c : Char) : Bool := c.toLower == c

/-- Tokenizer worker: scans the characters, skipping anything before the
first command letter, and collects each command letter together with the
run of non-letter characters that follows it (the accumulator holds the
command currently being collected, its parameter characters reversed).
This models the repeated exec of the source regex. -/
def tokAux : List Char → Option (Char × List Char) → List (Char × List Char)
  | [], none => []
  | [], some pr => [(pr.1, pr.2.reverse)]
  | a :: rest, none =>
    if isCmdLetter a then tokAux rest (some (a, [])) else tokAux rest none
  | a :: rest, some pr =>
    if isCmdLetter a then (pr.1, pr.2.reverse) :: tokAux rest (some (a, []))
    else tokAux rest (some (pr.1, a :: pr.2))

/-- Characters treated as parameter separators by the split regex
(ASCII whitespace or comma). -/
def isParamSep (c : Char) : Bool :=
  (c == ' ') || (c == ',') || (c == '\t') || (c == '\n') || (c == '\r') ||
  (c == '\x0b') || (c == '\x0c')

/-- Splits the parameter characters into maximal runs of non-separator
characters; empty pieces are dropped, which models trim, split on the
separator regex, and the filter of empty strings combined. -/
def splitAux : List Char → List Char → List (List Char)
  | [], [] => []
  | [], acc => [acc.reverse]
  | a :: rest, acc =>
    if isParamSep a then
      (if acc = [] then splitAux rest [] else acc.reverse :: splitAux rest [])
    else splitAux rest (a :: acc)

/-- Parameter substrings of a command's parameter characters. -/
def splitParams (l : List Char) : List (List Char) := splitAux l []

/-- Value of a digit run. -/
def digitsToNat (ds : List Char) : Nat :=
  ds.foldl (fun n c => 10 * n + (c.toNat - 48)) 0

/-- Applies a parsed exponent part to a magnitude (the exponent is
ignored when no digits follow, as parseFloat does). -/
def expApply (q : ℚ) (neg : Bool) (ds : List Char) : ℚ :=
  if ds = [] then q
  else if neg then q / (10 : ℚ) ^ digitsToNat ds
  else q * (10 : ℚ) ^ digitsToNat ds

/-- Reads an optional exponent sign and its digits. -/
def expCont (q : ℚ) : List Char → ℚ
  | '+' :: r => expApply q false (r.takeWhile Char.isDigit)
  | '-' :: r => expApply q true (r.takeWhile Char.isDigit)
  | r => expApply q false (r.takeWhile Char.isDigit)

/-- Applies an `e`/`E` exponent suffix if one starts here. -/
def applyExponent (q : ℚ) : List Char → ℚ
  | 'e' :: r => expCont q r
  | 'E' :: r => expCont q r
  | _ => q

/-- Model of JavaScript parseFloat on a separator-free token: an optional
sign, integer digits, an optional fraction, and an optional exponent are
read as the longest valid prefix; anything after that prefix is ignored,
and a token with no digits at all yields NaN (modelled as `none`).
The `Infinity` literal is not modelled. -/
def parseFloatChars (l : List Char) : JSNum :=
  let pr : Bool × List Char :=
    match l with
    | '-' :: r => (true, r)
    | '+' :: r => (false, r)
    | _ => (false, l)
  let intDs := pr.2.takeWhile Char.isDigit
  let r2 := pr.2.dropWhile Char.isDigit
  let fr : List Char × List Char :=
    match r2 with
    | '.' :: r => (r.takeWhile Char.isDigit, r.dropWhile Char.isDigit)
    | _ => ([], r2)
  if intDs = [] ∧ fr.1 = [] then none
  else
    let mag : ℚ :=
      (digitsToNat intDs : ℚ) + (digitsToNat fr.1 : ℚ) / (10 : ℚ) ^ fr.1.length
    let mag2 := applyExponent mag fr.2
    some (if pr.1 then -mag2 else mag2)

/-- Pairs parameters two at a time as (x, y); a trailing unpaired
parameter is dropped, as in the source's indexed loop. -/
def pairUp : List JSNum → List Point
  | x :: y :: rest => ⟨x, y⟩ :: pairUp rest
  | _ => []

/-- Builds one PathCommand from a command letter and its parsed numeric
parameters, following the source switch: M and L pair parameters, H keeps
each parameter as x with placeholder y = 0, V symmetrically, and Z as
well as the unsupported letters C, S, Q, T, A carry no points. -/
def buildCommand (c : Char) (params : List JSNum) : PathCommand :=
  match c.toUpper with
  | 'M' => ⟨c, pairUp params, isRelLetter c⟩
  | 'L' => ⟨c, pairUp params, isRelLetter c⟩
  | 'H' => ⟨c, params.map (fun v => ⟨v, some 0⟩), isRelLetter c⟩
  | 'V' => ⟨c, params.map (fun v => ⟨some 0, v⟩), isRelLetter c⟩
  | _ => ⟨c, [], isRelLetter c⟩

/-- The command parser parsePathCommands of the source. -/
def parsePathCommands (s : String) : List PathCommand :=
  (tokAux s.data none).map
    (fun pr => buildCommand pr.1 ((splitParams pr.2).map parseFloatChars))

/-- The mutable state closed over by convertToAbsoluteCoordinates:
current pen position and subpath start. -/
structure ResSt where
  currentX : JSNum
  currentY : JSNum
  subpathStartX : JSNum
  subpathStartY : JSNum
deriving DecidableEq

/-- Initial resolver state: origin. -/
def initResSt : ResSt := ⟨some 0, some 0, some 0, some 0⟩

/-- The per-point loop shared by the M and L cases: resolves each point
against the running cursor when relative and advances the cursor. -/
def lineLoop (rel : Bool) (cx cy : JSNum) : List Point → List Point × JSNum × JSNum
  | [] => ([], cx, cy)
  | p :: ps =>
    let x := if rel then jadd cx p.x else p.x
    let y := if rel then jadd cy p.y else p.y
    let r := lineLoop rel x y ps
    (⟨x, y⟩ :: r.1, r.2)

/-- The H case loop: x from the parameter, y carried from the cursor. -/
def hLoop (rel : Bool) (cx cy : JSNum) : List Point → List Point × JSNum
  | [] => ([], cx)
  | p :: ps =>
    let x := if rel then jadd cx p.x else p.x
    let r := hLoop rel x cy ps
    (⟨x, cy⟩ :: r.1, r.2)

/-- The V case loop: y from the parameter, x carried from the cursor. -/
def vLoop (rel : Bool) (cx cy : JSNum) : List Point → List Point × JSNum
  | [] => ([], cy)
  | p :: ps =>
    let y := if rel then jadd cy p.y else p.y
    let r := vLoop rel cx y ps
    (⟨cx, y⟩ :: r.1, r.2)

/-- Resolves one command against the resolver state, returning the
absolute command and the new state, following the source switch on the
uppercased command letter.  The M case additionally records its first
resolved point as the subpath start; the Z case emits exactly the
subpath start and resets the cursor to it; any other letter (the
unsupported C, S, Q, T, A) produces an empty point list and leaves the
state untouched. -/
def resolveCmd (st : ResSt) (cmd : PathCommand) : PathCommand × ResSt :=
  match cmd.type.toUpper with
  | 'M' =>
    match cmd.points with
    | [] => (⟨cmd.type, [], false⟩, st)
    | p :: ps =>
      let x := if cmd.isRelative then jadd st.currentX p.x else p.x
      let y := if cmd.isRelative then jadd st.currentY p.y else p.y
      let r := lineLoop cmd.isRelative x y ps
      (⟨cmd.type, ⟨x, y⟩ :: r.1, false⟩, ⟨r.2.1, r.2.2, x, y⟩)
  | 'L' =>
    let r := lineLoop cmd.isRelative st.currentX st.currentY cmd.points
    (⟨cmd.type, r.1, false⟩, ⟨r.2.1, r.2.2, st.subpathStartX, st.subpathStartY⟩)
  | 'H' =>
    let r := hLoop cmd.isRelative st.currentX st.currentY cmd.points
    (⟨cmd.type, r.1, false⟩, ⟨r.2, st.currentY, st.subpathStartX, st.subpathStartY⟩)
  | 'V' =>
    let r := vLoop cmd.isRelative st.currentX st.currentY cmd.points
    (⟨cmd.type, r.1, false⟩, ⟨st.currentX, r.2, st.subpathStartX, st.subpathStartY⟩)
  | 'Z' =>
    (⟨cmd.type, [⟨st.subpathStartX, st.subpathStartY⟩], false⟩,
     ⟨st.subpathStartX, st.subpathStartY, st.subpathStartX, st.subpathStartY⟩)
  | _ => (⟨cmd.type, [], false⟩, st)

/-- Resolves a command list starting from a given state. -/
def resolveFrom (st : ResSt) : List PathCommand → List PathCommand
  | [] => []
  | c :: cs => (resolveCmd st c).1 :: resolveFrom (resolveCmd st c).2 cs

/-- The state after one command. -/
def stepSt (st : ResSt) (c : PathCommand) : ResSt := (resolveCmd st c).2

/-- The state after a command list. -/
def stepsSt (st : ResSt) (cs : List PathCommand) : ResSt := cs.foldl stepSt st

/-- convertToAbsoluteCoordinates of the source: a single left-to-right
pass from the origin state. -/
def convertToAbsoluteCoordinates (cs : List PathCommand) : List PathCommand :=
  resolveFrom initResSt cs

/-- getPointsFromCommands of the source: concatenates every command's
points in command order. -/
def getPointsFromCommands (cs : List PathCommand) : List Point :=
  cs.foldl (fun ps c => ps ++ c.points) []

/-- A raw trace record (the fields the core reads; the optional style
attributes are carried through unread and omitted from the model). -/
structure Trace where
  id : String
  pathData : String
  width : ℚ
deriving DecidableEq

/-- An enriched trace as produced by analyzeTrace.  The connectedTraces
field is always present after analysis, so it is modelled as a plain
list (the source's initialize-if-missing step is then the identity). -/
structure ATrace where
  id : String
  pathData : String
  width : ℚ
  commands : List PathCommand
  points : List Point
  startPoint : Option Point
  endPoint : Option Point
  connectedTraces : List String
  direction : String
deriving DecidableEq

/-- The direction classification of analyzeTrace: comparing the absolute
coordinate displacements between the first and last point when there are
at least two points (the defaults of headD and getLastD are never read
in that case, modelling the source's non-null assertions). -/
def classifyDirection (pts : List Point) : String :=
  if 2 ≤ pts.length then
    let s := pts.headD ⟨some 0, some 0⟩
    let e := pts.getLastD ⟨some 0, some 0⟩
    let dx := jabs (jsub e.x s.x)
    let dy := jabs (jsub e.y s.y)
    if jgt dx (jmul dy (some 2)) then "horizontal"
    else if jgt dy (jmul dx (some 2)) then "vertical"
    else "diagonal"
  else "unknown"

/-- analyzeTrace of the source: parse, resolve, flatten the points, and
classify the whole-trace direction from the displacement between the
first and last point. -/
def analyzeTrace (t : Trace) : ATrace :=
  let absCmds := convertToAbsoluteCoordinates (parsePathCommands t.pathData)
  let pts := getPointsFromCommands absCmds
  ⟨t.id, t.pathData, t.width, absCmds, pts, pts.head?, pts.getLast?, [],
    classifyDirection pts⟩

/-- Math.round: round half toward positive infinity. -/
def jsRound (q : ℚ) : ℤ := ⌊q + 1/2⌋

/-- A spatial bucket key: the pair of rounded scaled coordinates
(modelling the source's comma-separated string key; `none` models the
NaN component of a key). -/
abbrev BKey := Option ℤ × Option ℤ

/-- The quantization of one point under the configured distance:
divide each coordinate by the distance and round. -/
def quantKey (d : ℚ) (p : Point) : BKey :=
  ((jdivQ p.x d).map jsRound, (jdivQ p.y d).map jsRound)

/-- Insertion-ordered map update: append the id to an existing bucket,
or append a fresh bucket at the end (Map.set / push of the source). -/
def addToBucket (m : List (BKey × List String)) (k : BKey) (i : String) :
    List (BKey × List String) :=
  if (m.find? (fun e => e.1 = k)).isSome then
    m.map (fun e => if e.1 = k then (e.1, e.2 ++ [i]) else e)
  else m ++ [(k, [i])]

/-- Adds one trace's start and end point (when present) to the map. -/
def bucketStep (d : ℚ) (m : List (BKey × List String)) (t : ATrace) :
    List (BKey × List String) :=
  let m1 := match t.startPoint with
    | some p => addToBucket m (quantKey d p) t.id
    | none => m
  match t.endPoint with
  | some p => addToBucket m1 (quantKey d p) t.id
  | none => m1

/-- First-occurrence-order deduplication, the spread of a JS Set. -/
def jsDedup (l : List String) : List String :=
  l.foldl (fun acc x => if x ∈ acc then acc else acc ++ [x]) []

/-- The representative coordinate of a bucket: each rounded integer is
multiplied back by the distance (parsing the integer back out of the
string key is exact, so it is modelled as the identity on the integer). -/
def keyPoint (d : ℚ) (k : BKey) : Point :=
  ⟨k.1.map (fun m => (m : ℚ) * d), k.2.map (fun m => (m : ℚ) * d)⟩

/-- A junction: representative point plus the ids that meet there. -/
structure Junction where
  point : Point
  traceIds : List String
deriving DecidableEq

/-- findJunctions of the source.  The tolerance argument models
options.minJunctionDistance (absent as `none`); the JS default
minJunctionDistance or 0.1 replaces both an absent and a zero (falsy)
value by 0.1.  A bucket qualifies when its raw id list has more than
one entry; deduplication happens only afterwards, inside the junction
record. -/
def findJunctions (ts : List ATrace) (minJunctionDistance : Option ℚ) : List Junction :=
  let minDistance : ℚ :=
    match minJunctionDistance with
    | none => 1 / 10
    | some q => if q = 0 then 1 / 10 else q
  let pointMap := ts.foldl (bucketStep minDistance) []
  pointMap.foldl
    (fun js e =>
      if 1 < e.2.length then js ++ [⟨keyPoint minDistance e.1, jsDedup e.2⟩] else js)
    []

/-- Appends an id to a trace's connectivity list unless already present. -/
def pushIfAbsent (y : String) (t : ATrace) : ATrace :=
  if y ∈ t.connectedTraces then t
  else { t with connectedTraces := t.connectedTraces ++ [y] }

/-- Applies an update to the first trace with the given id, modelling
the source's find-then-mutate on the shared array. -/
def updateFirst (x : String) (f : ATrace → ATrace) : List ATrace → List ATrace
  | [] => []
  | t :: ts => if t.id = x then f t :: ts else t :: updateFirst x f ts

/-- One ordered pair of the connectivity double loop: when the ids
differ, the second id is pushed (if absent) onto the first id's trace. -/
def applyPair (ts : List ATrace) (x y : String) : List ATrace :=
  if x ≠ y then updateFirst x (pushIfAbsent y) ts else ts

/-- Processes one junction: every ordered pair of its ids. -/
def applyJunction (ts : List ATrace) (j : Junction) : List ATrace :=
  j.traceIds.foldl (fun acc x => j.traceIds.foldl (fun acc2 y => applyPair acc2 x y) acc) ts

/-- updateTraceConnectivity of the source (the initialize-if-missing
pass is the identity here because connectedTraces is always present). -/
def updateTraceConnectivity (ts : List ATrace) (js : List Junction) : List ATrace :=
  js.foldl applyJunction ts

/-- The origin point, the initial cursor and subpath start. -/
def originPoint : Point := ⟨some 0, some 0⟩

/-- The subpath-start component of a resolver state as a point. -/
def subpathPoint (st : ResSt) : Point := ⟨st.subpathStartX, st.subpathStartY⟩

/-- Reads the subpath start off a resolved command prefix: the first
point of the most recent MoveTo that resolved at least one point, or
the given default when no such MoveTo exists.  (A MoveTo that resolves
no points — possible only for a parameterless M — does not define a
subpath start and leaves the previous one in force.) -/
def subpathOf : List PathCommand → Point → Point
  | [], d => d
  | c :: cs, d =>
    subpathOf cs
      (if c.type.toUpper = 'M' then
        match c.points with
        | p :: _ => p
        | [] => d
      else d)

/-- The relative displacement each emitted point of one command should
exhibit: for a relative M or L point the raw parameter pair, for a
relative H parameter the pair (param, 0), for a relative V parameter
(0, param); `none` marks emitted points for which no relative delta is
claimed (absolute commands and the single point of a ClosePath). -/
def relDeltasOf (c : PathCommand) : List (Option Point) :=
  match c.type.toUpper with
  | 'Z' => [none]
  | 'M' => c.points.map (fun p => if c.isRelative then some p else none)
  | 'L' => c.points.map (fun p => if c.isRelative then some p else none)
  | 'H' => c.points.map (fun p => if c.isRelative then some ⟨p.x, some 0⟩ else none)
  | 'V' => c.points.map (fun p => if c.isRelative then some ⟨some 0, p.y⟩ else none)
  | _ => []

/-- The claimed relative displacements of a whole command list, in
emission order. -/
def relDeltas (cs : List PathCommand) : List (Option Point) :=
  cs.flatMap relDeltasOf

/-- DiffsMatch ods prev pts holds when the two lists have equal length
and, wherever the delta list claims a displacement, the difference of
the emitted point and its predecessor (the previous emitted point, with
`prev` before the first) equals that displacement. -/
def DiffsMatch : List (Option Point) → Point → List Point → Prop
  | [], _, [] => True
  | none :: ods, _, p :: ps => DiffsMatch ods p ps
  | some d :: ods, prev, p :: ps =>
    jsub p.x prev.x = d.x ∧ jsub p.y prev.y = d.y ∧ DiffsMatch ods p ps
  | _, _, _ => False

/-- A resolver state all of whose components are ordinary numbers. -/
def validSt (st : ResSt) : Prop :=
  st.currentX.isSome ∧ st.currentY.isSome ∧
    st.subpathStartX.isSome ∧ st.subpathStartY.isSome

/-- The id sequence of a trace list. -/
def idsOf (ts : List ATrace) : List String := ts.map ATrace.id

/-- The connectivity list of the first trace carrying an id (empty when
no trace carries it) — the list the source's find-then-mutate reads. -/
def connOf (ts : List ATrace) (x : String) : List String :=
  ((ts.find? (fun t => t.id = x)).map ATrace.connectedTraces).getD []

/-! ## General lemmas about the resolver -/

/-- A resolved command keeps the source command's letter. -/
theorem resolveCmd_type (st : ResSt) (c : PathCommand) :
    (resolveCmd st c).1.type = c.type := by
  unfold resolveCmd
  split <;> first | rfl | (split <;> rfl)

/-- The command type produced by buildCommand is the tokenized letter. -/
theorem buildCommand_type (c : Char) (ps : List JSNum) :
    (buildCommand c ps).type = c := by
  unfold buildCommand
  split <;> rfl

/-! ## Claim C10 -/

/-- Claim C10: resolving a command whose letter uppercases to one of
C, S, Q, T, A leaves the cursor and subpath-start state completely
unchanged and emits the command with an empty point list, so the rest
of the sequence resolves from the state that preceded it. -/
theorem c10_unsupported_is_frame_neutral (st : ResSt) (c : PathCommand)
    (h : c.type.toUpper ∈ (['C','S','Q','T','A'] : List Char)) :
    resolveCmd st c = (⟨c.type, [], false⟩, st) ∧
      ∀ rest : List PathCommand,
        resolveFrom st (c :: rest) = ⟨c.type, [], false⟩ :: resolveFrom st rest := by
  have hr : resolveCmd st c = (⟨c.type, [], false⟩, st) := by
    simp only [List.mem_cons, List.not_mem_nil, or_false] at h
    rcases h with h | h | h | h | h <;> (unfold resolveCmd; rw [h]) <;> rfl
  refine ⟨hr, fun rest => ?_⟩
  simp [resolveFrom, hr]

/-- Witness for C10 at a concrete cubic command. -/
theorem c10_witness :
    (⟨'C', [⟨some 1, some 2⟩], false⟩ : PathCommand).type.toUpper ∈
        (['C','S','Q','T','A'] : List Char) ∧
      resolveCmd initResSt ⟨'C', [⟨some 1, some 2⟩], false⟩ =
        (⟨'C', [], false⟩, initResSt) :=
  ⟨by decide,
    (c10_unsupported_is_frame_neutral initResSt ⟨'C', [⟨some 1, some 2⟩], false⟩
      (by decide)).1⟩

/-! ## Claim C1 -/

/-- Claim C1 (code-bug evaluation): a single trace whose start and end
points quantize to the same bucket does yield a Junction by itself, and
that Junction's deduplicated traceIds has size 1, violating the
size-at-least-2 invariant: findJunctions tests the raw id list's length
before deduplicating. -/
theorem c1_singleton_junction_eval :
    findJunctions [analyzeTrace ⟨"t1", "M0,0 L5,0 Z", 1⟩] none =
        [⟨⟨some 0, some 0⟩, ["t1"]⟩] ∧
      (findJunctions [analyzeTrace ⟨"t1", "M0,0 L5,0 Z", 1⟩] none).map
          (fun j => j.traceIds.length) = [1] := by
  with_unfolding_all decide

/-! ## Claim C4 -/

/-- Claim C4 counterexample: calling the junction builder with the
non-positive tolerance -1 is not a fatal precondition violation — the
traces are processed as usual and a junction is produced from them. -/
theorem c4_counterexample :
    findJunctions
        [analyzeTrace ⟨"t1", "M0,0 L1,0", 1⟩, analyzeTrace ⟨"t2", "M1,0 L2,0", 1⟩]
        (some (-1)) =
      [⟨⟨some 1, some 0⟩, ["t1", "t2"]⟩] := by
  with_unfolding_all decide

/-- Claim C4 (amended): the junction builder performs no tolerance
validation: a tolerance of 0 is falsy in JavaScript and is silently
replaced by the 0.1 default, exactly as an absent tolerance is, and the
builder always runs to completion (it is a total function in this
model; no exception path exists in the source). -/
theorem c4_zero_tolerance_defaults (ts : List ATrace) :
    findJunctions ts (some 0) = findJunctions ts none ∧
      findJunctions ts none = findJunctions ts (some (1/10)) := by
  constructor <;> norm_num [findJunctions]

/-! ## Claim C3 -/

/-- Two rationals with the same rounded value are less than 1 apart. -/
theorem jsRound_close (a b : ℚ) (h : jsRound a = jsRound b) : |a - b| < 1 := by
  unfold jsRound at h
  have h1 := Int.floor_le (a + 1/2)
  have h2 := Int.lt_floor_add_one (a + 1/2)
  have h3 := Int.floor_le (b + 1/2)
  have h4 := Int.lt_floor_add_one (b + 1/2)
  rw [h] at h1 h2
  rw [abs_sub_lt_iff]
  constructor <;> linarith

/-- Claim C3 counterexample: under tolerance 0.1, the points (0.04, 0)
and (0.06, 0) are 0.02 apart — well below the tolerance — yet straddle
a bucket boundary and quantize to different keys. -/
theorem c3_counterexample :
    ((1:ℚ)/25 - 3/50)^2 + ((0:ℚ) - 0)^2 < ((1:ℚ)/10)^2 ∧
      quantKey (1/10) ⟨some (1/25), some 0⟩ ≠ quantKey (1/10) ⟨some (3/50), some 0⟩ := by
  with_unfolding_all decide

/-- Claim C3 (amended): quantization does not merge every pair of
endpoints closer than the tolerance (boundary straddling, see the
counterexample); what holds is the converse bound: two endpoints that
do map to the same bucket key under a positive tolerance differ by less
than the tolerance in each coordinate. -/
theorem c3_same_key_within_tolerance (t x1 y1 x2 y2 : ℚ) (ht : 0 < t)
    (h : quantKey t ⟨some x1, some y1⟩ = quantKey t ⟨some x2, some y2⟩) :
    |x1 - x2| < t ∧ |y1 - y2| < t := by
  unfold quantKey jdivQ at h
  simp only [Option.map_some', Prod.mk.injEq, Option.some.injEq] at h
  obtain ⟨hx, hy⟩ := h
  constructor
  · have hx2 := jsRound_close _ _ hx
    rw [div_sub_div_same, abs_div, abs_of_pos ht, div_lt_one ht] at hx2
    exact hx2
  · have hy2 := jsRound_close _ _ hy
    rw [div_sub_div_same, abs_div, abs_of_pos ht, div_lt_one ht] at hy2
    exact hy2

/-- Witness for the amended C3 at tolerance 1 and coincident points. -/
theorem c3_witness : (0:ℚ) < 1 ∧ |(0:ℚ) - 0| < 1 ∧ |(0:ℚ) - 0| < 1 :=
  ⟨by norm_num,
    (c3_same_key_within_tolerance 1 0 0 0 0 (by norm_num) rfl).1,
    (c3_same_key_within_tolerance 1 0 0 0 0 (by norm_num) rfl).2⟩

/-! ## Claim C5 -/

/-- Tokenization splits exactly at command letters: when the second
string starts with a command letter, tokenizing the concatenation
tokenizes the parts independently, whatever command is in flight. -/
theorem tokAux_append (c : Char) (hc : isCmdLetter c = true) (cs : List Char) :
    ∀ (l1 : List Char) (acc : Option (Char × List Char)),
      tokAux (l1 ++ c :: cs) acc = tokAux l1 acc ++ tokAux (c :: cs) none := by
  intro l1
  induction l1 with
  | nil =>
    intro acc
    cases acc with
    | none => simp [tokAux]
    | some pr => simp [tokAux, hc]
  | cons a l1 ih =>
    intro acc
    cases acc with
    | none =>
      by_cases ha : isCmdLetter a = true <;> simp [tokAux, ha, ih]
    | some pr =>
      by_cases ha : isCmdLetter a = true <;> simp [tokAux, ha, ih]

/-- Claim C5 (amended): every unsupported command letter (C, S, Q, T, A
in either case) is recognized as a command and the tokenizer does not
desynchronize — parsing distributes over concatenation at any command
letter, so subsequent supported commands parse exactly as they would
alone — but the unsupported command's numeric parameters are discarded,
not retained: its parsed point list is empty. -/
theorem c5_unsupported_recognized_params_dropped (s : String) :
    (∀ c ∈ parsePathCommands s,
        c.type.toUpper ∈ (['C','S','Q','T','A'] : List Char) → c.points = []) ∧
      ∀ (s2 : String) (c : Char) (cs : List Char), s2.data = c :: cs →
        isCmdLetter c = true →
        parsePathCommands (s ++ s2) = parsePathCommands s ++ parsePathCommands s2 := by
  constructor
  · intro cmd hmem hu
    unfold parsePathCommands at hmem
    obtain ⟨pr, hpr, rfl⟩ := List.mem_map.mp hmem
    rw [buildCommand_type] at hu
    simp only [List.mem_cons, List.not_mem_nil, or_false] at hu
    rcases hu with h | h | h | h | h <;> (unfold buildCommand; rw [h]) <;> rfl
  · intro s2 c cs h2 hc
    unfold parsePathCommands
    rw [String.data_append, h2, tokAux_append c hc cs _ none, List.map_append]

/-- Claim C5 counterexample: the control points of an unsupported C
command are not retained verbatim as raw numeric parameters — the
command is parsed with an empty point list. -/
theorem c5_counterexample :
    parsePathCommands "C1 2 3 4 5 6" = [⟨'C', [], false⟩] := by
  with_unfolding_all decide

/-- Witness for the amended C5: parsing a C command followed by an L
command splits compositionally at the L. -/
theorem c5_witness :
    isCmdLetter 'L' = true ∧
      parsePathCommands ("C1 2" ++ "L7,8") =
        parsePathCommands "C1 2" ++ parsePathCommands "L7,8" :=
  ⟨by decide,
    (c5_unsupported_recognized_params_dropped "C1 2").2 "L7,8" 'L' "7,8".data
      (by decide) (by decide)⟩

/-! ## Claim C8 -/

/-- The comparison v > 2v of the direction classifier is always false
when v is an absolute value (or NaN). -/
theorem jgt_abs_double (w : JSNum) :
    jgt (jabs w) (jmul (jabs w) (some 2)) = false := by
  cases w with
  | none => rfl
  | some q =>
    simp only [jabs, Option.map_some', jmul, jgt, decide_eq_false_iff_not, not_lt]
    have := abs_nonneg q
    linarith

/-- When the coordinate displacements have equal absolute value neither
threshold of the classifier fires, so the tie is classified diagonal. -/
theorem classifyDirection_tie (pts : List Point) (s e : Point)
    (hlen : 2 ≤ pts.length) (hs : pts.head? = some s) (he : pts.getLast? = some e)
    (heq : jabs (jsub e.x s.x) = jabs (jsub e.y s.y)) :
    classifyDirection pts = "diagonal" := by
  unfold classifyDirection
  rw [if_pos hlen]
  rw [List.headD_eq_head?, List.getLastD_eq_getLast?, hs, he]
  simp only [Option.getD_some]
  simp only [heq, jgt_abs_double]
  simp

/-- Claim C8: the scenario path M0,0 L10,0 L10,10 resolves to the three
expected points with start (0,0), end (10,10) and direction diagonal;
and in general whenever the absolute coordinate displacements between
start and end are equal, neither threshold fires and the classification
is diagonal. -/
theorem c8_scenario_and_tie :
    ((analyzeTrace ⟨"t1", "M0,0 L10,0 L10,10", 1⟩).points =
        [⟨some 0, some 0⟩, ⟨some 10, some 0⟩, ⟨some 10, some 10⟩] ∧
      (analyzeTrace ⟨"t1", "M0,0 L10,0 L10,10", 1⟩).startPoint = some ⟨some 0, some 0⟩ ∧
      (analyzeTrace ⟨"t1", "M0,0 L10,0 L10,10", 1⟩).endPoint = some ⟨some 10, some 10⟩ ∧
      (analyzeTrace ⟨"t1", "M0,0 L10,0 L10,10", 1⟩).direction = "diagonal") ∧
    ∀ (t : Trace) (s e : Point),
      2 ≤ (analyzeTrace t).points.length →
      (analyzeTrace t).startPoint = some s →
      (analyzeTrace t).endPoint = some e →
      jabs (jsub e.x s.x) = jabs (jsub e.y s.y) →
      (analyzeTrace t).direction = "diagonal" := by
  constructor
  · refine ⟨?_, ?_, ?_, ?_⟩ <;> with_unfolding_all decide
  · intro t s e hlen hs he heq
    have hd : (analyzeTrace t).direction = classifyDirection (analyzeTrace t).points := rfl
    have hsp : (analyzeTrace t).startPoint = (analyzeTrace t).points.head? := rfl
    have hep : (analyzeTrace t).endPoint = (analyzeTrace t).points.getLast? := rfl
    rw [hd]
    exact classifyDirection_tie _ s e hlen (hsp ▸ hs) (hep ▸ he) heq

/-- Witness for the general tie rule of C8 on the diagonal M0,0 L5,5. -/
theorem c8_witness :
    2 ≤ (analyzeTrace ⟨"t2", "M0,0 L5,5", 1⟩).points.length ∧
      (analyzeTrace ⟨"t2", "M0,0 L5,5", 1⟩).direction = "diagonal" :=
  ⟨by with_unfolding_all decide,
    c8_scenario_and_tie.2 ⟨"t2", "M0,0 L5,5", 1⟩ ⟨some 0, some 0⟩ ⟨some 5, some 5⟩
      (by with_unfolding_all decide) (by with_unfolding_all decide)
      (by with_unfolding_all decide) (by with_unfolding_all decide)⟩

/-! ## Claim C6 -/

/-- Resolution processes an appended list by processing the first part
and continuing from the resulting state. -/
theorem resolveFrom_append (l1 l2 : List PathCommand) :
    ∀ st : ResSt, resolveFrom st (l1 ++ l2) =
      resolveFrom st l1 ++ resolveFrom (stepsSt st l1) l2 := by
  induction l1 with
  | nil => intro st; rfl
  | cons c l1 ih =>
    intro st
    simp only [List.cons_append, resolveFrom, stepsSt, List.foldl_cons, List.append_eq]
    rw [ih]
    rfl

/-- The state after an appended list is reached in two stages. -/
theorem stepsSt_append (st : ResSt) (l1 l2 : List PathCommand) :
    stepsSt st (l1 ++ l2) = stepsSt (stepsSt st l1) l2 := by
  simp [stepsSt, List.foldl_append]

/-- Resolution preserves the number of commands. -/
theorem resolveFrom_length (l : List PathCommand) :
    ∀ st : ResSt, (resolveFrom st l).length = l.length := by
  induction l with
  | nil => intro st; rfl
  | cons c l ih => intro st; simp [resolveFrom, ih]

/-- How one resolution step changes the subpath start: a MoveTo that
resolves at least one point installs its first resolved point, and
every other command keeps the previous subpath start. -/
theorem resolveCmd_subpath (st : ResSt) (c : PathCommand) (r : PathCommand)
    (st2 : ResSt) (h : resolveCmd st c = (r, st2)) :
    subpathPoint st2 =
      (if r.type.toUpper = 'M' then
        match r.points with
        | p :: _ => p
        | [] => subpathPoint st
      else subpathPoint st) := by
  have ht : r.type = c.type := by
    have := resolveCmd_type st c
    rw [h] at this
    exact this
  rw [ht]
  unfold resolveCmd at h
  split at h <;>
    first
    | (injection h with h1 h2
       subst h1
       subst h2
       simp_all [subpathPoint])
    | (split at h <;>
        (injection h with h1 h2
         subst h1
         subst h2
         simp_all [subpathPoint]))

/-- The subpath-start component of the resolver state is exactly what
subpathOf reads off the resolved prefix. -/
theorem stepsSt_subpath (cs : List PathCommand) :
    ∀ st : ResSt, subpathPoint (stepsSt st cs) =
      subpathOf (resolveFrom st cs) (subpathPoint st) := by
  induction cs with
  | nil => intro st; rfl
  | cons c cs ih =>
    intro st
    simp only [stepsSt, List.foldl_cons, resolveFrom, subpathOf]
    rw [show List.foldl stepSt (stepSt st c) cs = stepsSt (stepSt st c) cs from rfl]
    rw [ih (stepSt st c)]
    congr 1
    have hpair : resolveCmd st c = ((resolveCmd st c).1, (resolveCmd st c).2) := rfl
    have := resolveCmd_subpath st c (resolveCmd st c).1 (resolveCmd st c).2 hpair
    rw [resolveCmd_type] at this
    rw [show stepSt st c = (resolveCmd st c).2 from rfl, this]
    rw [← resolveCmd_type st c]

/-- Claim C6: resolving a ClosePath command emits exactly one point,
equal to the first resolved point of the most recent preceding MoveTo
that resolved a point (or the origin (0,0) when there is none — a
MoveTo can only fail to resolve a point when it parsed without
parameters), regardless of any LineTo commands in between, and resets
the cursor (and subpath start) to that point. -/
theorem c6_closepath_emits_subpath_start (cs : List PathCommand) (i : ℕ)
    (h : i < cs.length) (hz : (cs.get ⟨i, h⟩).type.toUpper = 'Z') :
    (convertToAbsoluteCoordinates cs)[i]? =
        some ⟨(cs.get ⟨i, h⟩).type,
          [subpathOf (resolveFrom initResSt (cs.take i)) originPoint], false⟩ ∧
      stepsSt initResSt (cs.take (i + 1)) =
        ⟨(subpathOf (resolveFrom initResSt (cs.take i)) originPoint).x,
          (subpathOf (resolveFrom initResSt (cs.take i)) originPoint).y,
          (subpathOf (resolveFrom initResSt (cs.take i)) originPoint).x,
          (subpathOf (resolveFrom initResSt (cs.take i)) originPoint).y⟩ := by
  have hsplit : cs = cs.take i ++ cs.get ⟨i, h⟩ :: cs.drop (i + 1) := by
    conv_lhs => rw [← List.take_append_drop i cs]
    congr 1
    rw [List.get_eq_getElem]
    exact List.drop_eq_getElem_cons h
  have hlen : (resolveFrom initResSt (cs.take i)).length = i := by
    rw [resolveFrom_length]
    exact List.length_take_of_le (le_of_lt h)
  have hsub : subpathPoint (stepsSt initResSt (cs.take i)) =
      subpathOf (resolveFrom initResSt (cs.take i)) originPoint := by
    rw [stepsSt_subpath]
    rfl
  have hzres : resolveCmd (stepsSt initResSt (cs.take i)) (cs.get ⟨i, h⟩) =
      (⟨(cs.get ⟨i, h⟩).type,
          [subpathOf (resolveFrom initResSt (cs.take i)) originPoint], false⟩,
        ⟨(subpathOf (resolveFrom initResSt (cs.take i)) originPoint).x,
          (subpathOf (resolveFrom initResSt (cs.take i)) originPoint).y,
          (subpathOf (resolveFrom initResSt (cs.take i)) originPoint).x,
          (subpathOf (resolveFrom initResSt (cs.take i)) originPoint).y⟩) := by
    rw [← hsub]
    unfold resolveCmd
    rw [hz]
    rfl
  constructor
  · have hres : convertToAbsoluteCoordinates cs =
        resolveFrom initResSt (cs.take i) ++
          resolveFrom (stepsSt initResSt (cs.take i))
            (cs.get ⟨i, h⟩ :: cs.drop (i + 1)) := by
      unfold convertToAbsoluteCoordinates
      conv_lhs => rw [hsplit, resolveFrom_append]
    rw [hres, List.getElem?_append_right (le_of_eq hlen), hlen, Nat.sub_self]
    simp only [resolveFrom, hzres, List.getElem?_cons_zero]
  · have htake : cs.take (i + 1) = cs.take i ++ [cs.get ⟨i, h⟩] := by
      rw [List.take_succ]
      congr 1
      rw [List.getElem?_eq_getElem h]
      rfl
    rw [htake, stepsSt_append]
    show stepSt (stepsSt initResSt (cs.take i)) (cs.get ⟨i, h⟩) = _
    rw [stepSt, hzres]

/-- Witness for C6: the Z at index 3 of M1,2 L3,4 L5,6 Z resolves to the
MoveTo's point (1,2). -/
theorem c6_witness :
    (convertToAbsoluteCoordinates (parsePathCommands "M1,2 L3,4 L5,6 Z"))[3]? =
      some ⟨'Z', [⟨some 1, some 2⟩], false⟩ := by
  have h3 : 3 < (parsePathCommands "M1,2 L3,4 L5,6 Z").length := by
    with_unfolding_all decide
  have hz : ((parsePathCommands "M1,2 L3,4 L5,6 Z").get ⟨3, h3⟩).type.toUpper = 'Z' := by
    with_unfolding_all rfl
  rw [(c6_closepath_emits_subpath_start (parsePathCommands "M1,2 L3,4 L5,6 Z") 3 h3 hz).1]
  with_unfolding_all rfl

/-! ## Claims C2 and C9: connectivity machinery -/

/-- The fields of a trace that the junction builder reads. -/
def rawOf (t : ATrace) : String × Option Point × Option Point :=
  (t.id, t.startPoint, t.endPoint)

/-- pushIfAbsent only changes the connectivity list. -/
theorem pushIfAbsent_rawOf (y : String) (t : ATrace) :
    rawOf (pushIfAbsent y t) = rawOf t := by
  unfold pushIfAbsent
  split <;> rfl

/-- pushIfAbsent keeps the id. -/
theorem pushIfAbsent_id (y : String) (t : ATrace) :
    (pushIfAbsent y t).id = t.id := by
  unfold pushIfAbsent
  split <;> rfl

/-- updateFirst with a connectivity-only update preserves every raw field. -/
theorem updateFirst_rawOf (x : String) (f : ATrace → ATrace)
    (hf : ∀ t, rawOf (f t) = rawOf t) :
    ∀ ts : List ATrace, (updateFirst x f ts).map rawOf = ts.map rawOf := by
  intro ts
  induction ts with
  | nil => rfl
  | cons t ts ih =>
    unfold updateFirst
    split <;> simp [hf, ih]

/-- applyPair preserves every raw field. -/
theorem applyPair_rawOf (ts : List ATrace) (x y : String) :
    (applyPair ts x y).map rawOf = ts.map rawOf := by
  unfold applyPair
  split
  · exact updateFirst_rawOf x _ (pushIfAbsent_rawOf y) ts
  · rfl

/-- A fold whose steps preserve the raw fields preserves them. -/
theorem foldl_rawOf {β : Type} (f : List ATrace → β → List ATrace)
    (hf : ∀ ts b, (f ts b).map rawOf = ts.map rawOf) (l : List β) :
    ∀ ts : List ATrace, (l.foldl f ts).map rawOf = ts.map rawOf := by
  induction l with
  | nil => intro ts; rfl
  | cons b l ih =>
    intro ts
    simp only [List.foldl_cons]
    rw [ih (f ts b), hf]

/-- applyJunction preserves every raw field. -/
theorem applyJunction_rawOf (ts : List ATrace) (j : Junction) :
    (applyJunction ts j).map rawOf = ts.map rawOf := by
  unfold applyJunction
  apply foldl_rawOf
  intro ts2 x
  apply foldl_rawOf
  intro ts3 y
  exact applyPair_rawOf ts3 x y

/-- The connectivity update preserves every raw field. -/
theorem updateTraceConnectivity_rawOf (ts : List ATrace) (js : List Junction) :
    (updateTraceConnectivity ts js).map rawOf = ts.map rawOf := by
  unfold updateTraceConnectivity
  exact foldl_rawOf applyJunction applyJunction_rawOf js ts

/-- Equal raw fields give equal id sequences. -/
theorem idsOf_eq_of_rawOf {ts ts2 : List ATrace}
    (h : ts.map rawOf = ts2.map rawOf) : idsOf ts = idsOf ts2 := by
  have h2 := congrArg (List.map Prod.fst) h
  simpa [idsOf, List.map_map, Function.comp, rawOf] using h2

/-- One bucket step reads only the raw fields. -/
theorem bucketStep_congr (d : ℚ) (m : List (BKey × List String)) (t t2 : ATrace)
    (h : rawOf t = rawOf t2) : bucketStep d m t = bucketStep d m t2 := by
  unfold rawOf at h
  simp only [Prod.mk.injEq] at h
  obtain ⟨h1, h2, h3⟩ := h
  unfold bucketStep
  rw [h1, h2, h3]

/-- The bucket map depends only on the raw fields of the traces. -/
theorem foldl_bucketStep_congr (d : ℚ) :
    ∀ (ts ts2 : List ATrace), ts.map rawOf = ts2.map rawOf →
      ∀ m : List (BKey × List String),
        ts.foldl (bucketStep d) m = ts2.foldl (bucketStep d) m := by
  intro ts
  induction ts with
  | nil =>
    intro ts2 h m
    cases ts2 with
    | nil => rfl
    | cons t ts2 => simp at h
  | cons t ts ih =>
    intro ts2 h m
    cases ts2 with
    | nil => simp at h
    | cons t2 ts2 =>
      simp only [List.map_cons, List.cons.injEq] at h
      simp only [List.foldl_cons]
      rw [bucketStep_congr d m t t2 h.1]
      exact ih ts2 h.2 _

/-- findJunctions reads only the raw fields of the traces. -/
theorem findJunctions_congr (ts ts2 : List ATrace) (o : Option ℚ)
    (h : ts.map rawOf = ts2.map rawOf) :
    findJunctions ts o = findJunctions ts2 o := by
  simp only [findJunctions]
  rw [foldl_bucketStep_congr _ ts ts2 h]

/-- updateFirst at one id does not disturb lookups of a different id. -/
theorem updateFirst_find?_ne (x : String) (f : ATrace → ATrace)
    (hf : ∀ t, (f t).id = t.id) (z : String) (hne : z ≠ x) :
    ∀ ts : List ATrace,
      (updateFirst x f ts).find? (fun t => t.id = z) = ts.find? (fun t => t.id = z) := by
  intro ts
  induction ts with
  | nil => rfl
  | cons t ts ih =>
    unfold updateFirst
    by_cases hx : t.id = x
    · rw [if_pos hx]
      have hz1 : ¬ ((f t).id = z) := by rw [hf, hx]; exact fun hh => hne hh.symm
      have hz2 : ¬ (t.id = z) := by rw [hx]; exact fun hh => hne hh.symm
      rw [List.find?_cons_of_neg _ (by simpa using hz1),
        List.find?_cons_of_neg _ (by simpa using hz2)]
    · rw [if_neg hx]
      by_cases hz : t.id = z
      · rw [List.find?_cons_of_pos _ (by simpa using hz),
          List.find?_cons_of_pos _ (by simpa using hz)]
      · rw [List.find?_cons_of_neg _ (by simpa using hz),
          List.find?_cons_of_neg _ (by simpa using hz)]
        exact ih

/-- Looking up the updated id returns the updated trace. -/
theorem updateFirst_find?_eq (x : String) (f : ATrace → ATrace)
    (hf : ∀ t, (f t).id = t.id) :
    ∀ ts : List ATrace,
      (updateFirst x f ts).find? (fun t => t.id = x) =
        (ts.find? (fun t => t.id = x)).map f := by
  intro ts
  induction ts with
  | nil => rfl
  | cons t ts ih =>
    unfold updateFirst
    by_cases hx : t.id = x
    · rw [if_pos hx]
      rw [List.find?_cons_of_pos _ (by simpa [hf] using hx),
        List.find?_cons_of_pos _ (by simpa using hx)]
      rfl
    · rw [if_neg hx]
      rw [List.find?_cons_of_neg _ (by simpa using hx),
        List.find?_cons_of_neg _ (by simpa using hx)]
      exact ih

/-- A lookup of an id absent from the list finds nothing to update. -/
theorem updateFirst_of_not_found (x : String) (f : ATrace → ATrace) :
    ∀ ts : List ATrace, ts.find? (fun t => t.id = x) = none → updateFirst x f ts = ts := by
  intro ts
  induction ts with
  | nil => intro h; rfl
  | cons t ts ih =>
    intro h
    by_cases hx : t.id = x
    · rw [List.find?_cons_of_pos _ (by simpa using hx)] at h
      exact absurd h (by simp)
    · rw [List.find?_cons_of_neg _ (by simpa using hx)] at h
      unfold updateFirst
      rw [if_neg hx, ih h]

/-- When the found trace is a fixed point of the update, updateFirst is
the identity. -/
theorem updateFirst_of_fixed (x : String) (f : ATrace → ATrace) :
    ∀ ts : List ATrace,
      (∀ t, ts.find? (fun t => t.id = x) = some t → f t = t) →
      updateFirst x f ts = ts := by
  intro ts
  induction ts with
  | nil => intro h; rfl
  | cons t ts ih =>
    intro h
    unfold updateFirst
    by_cases hx : t.id = x
    · rw [if_pos hx]
      rw [h t (List.find?_cons_of_pos _ (by simpa using hx))]
    · rw [if_neg hx]
      rw [ih (fun t2 h2 => h t2 (by rw [List.find?_cons_of_neg _ (by simpa using hx)]; exact h2))]

/-- An id occurs in the id sequence exactly when a lookup finds it. -/
theorem mem_idsOf_iff_find? (ts : List ATrace) (x : String) :
    x ∈ idsOf ts ↔ (ts.find? (fun t => t.id = x)).isSome := by
  rw [List.find?_isSome]
  simp [idsOf, List.mem_map, eq_comm]

/-- idsOf applyPair. -/
theorem idsOf_applyPair (ts : List ATrace) (x y : String) :
    idsOf (applyPair ts x y) = idsOf ts :=
  idsOf_eq_of_rawOf (applyPair_rawOf ts x y)

/-- Membership in a connectivity list after one ordered pair of the
double loop: the pair adds exactly the second id to the first id's
trace, when the ids differ and the first id is present. -/
theorem mem_connOf_applyPair (ts : List ATrace) (x y z w : String) :
    w ∈ connOf (applyPair ts x y) z ↔
      w ∈ connOf ts z ∨ (z = x ∧ w = y ∧ x ≠ y ∧ x ∈ idsOf ts) := by
  unfold applyPair
  by_cases hxy : x = y
  · rw [if_neg (by simpa using hxy)]
    simp [hxy]
  · rw [if_pos hxy]
    by_cases hzx : z = x
    · subst hzx
      unfold connOf
      rw [updateFirst_find?_eq z _ (pushIfAbsent_id y)]
      rw [mem_idsOf_iff_find?]
      cases hfind : ts.find? (fun t => t.id = z) with
      | none => simp
      | some t =>
        simp only [Option.map_some', Option.getD_some, Option.isSome_some,
          true_and, and_true]
        unfold pushIfAbsent
        split
        · next hy =>
          constructor
          · exact fun hw => Or.inl hw
          · rintro (hw | ⟨rfl, _⟩)
            · exact hw
            · exact hy
        · next hy =>
          show w ∈ t.connectedTraces ++ [y] ↔ _
          simp only [List.mem_append, List.mem_singleton]
          constructor
          · rintro (hw | rfl)
            · exact Or.inl hw
            · exact Or.inr ⟨rfl, hxy⟩
          · rintro (hw | ⟨rfl, _⟩)
            · exact Or.inl hw
            · exact Or.inr rfl
    · unfold connOf
      rw [updateFirst_find?_ne x _ (pushIfAbsent_id y) z hzx]
      simp [hzx]

/-- Membership after the inner loop of one junction: all ordered pairs
with a fixed first id. -/
theorem mem_connOf_innerFold (x : String) (l : List String) :
    ∀ (ts : List ATrace) (z w : String),
      w ∈ connOf (l.foldl (fun acc y => applyPair acc x y) ts) z ↔
        w ∈ connOf ts z ∨ (z = x ∧ w ∈ l ∧ x ≠ w ∧ x ∈ idsOf ts) := by
  induction l with
  | nil => intro ts z w; simp
  | cons y l ih =>
    intro ts z w
    simp only [List.foldl_cons]
    rw [ih (applyPair ts x y) z w, mem_connOf_applyPair, idsOf_applyPair]
    simp only [List.mem_cons]
    constructor
    · rintro ((hw | ⟨rfl, rfl, hne, hid⟩) | ⟨rfl, hwl, hne, hid⟩)
      · exact Or.inl hw
      · exact Or.inr ⟨rfl, Or.inl rfl, hne, hid⟩
      · exact Or.inr ⟨rfl, Or.inr hwl, hne, hid⟩
    · rintro (hw | ⟨rfl, rfl | hwl, hne, hid⟩)
      · exact Or.inl (Or.inl hw)
      · exact Or.inl (Or.inr ⟨rfl, rfl, hne, hid⟩)
      · exact Or.inr ⟨rfl, hwl, hne, hid⟩

/-- Membership after both loops of one junction. -/
theorem mem_connOf_outerFold (ids2 : List String) (l : List String) :
    ∀ (ts : List ATrace) (z w : String),
      w ∈ connOf
          (l.foldl (fun acc x => ids2.foldl (fun acc2 y => applyPair acc2 x y) acc) ts) z ↔
        w ∈ connOf ts z ∨ (z ∈ l ∧ w ∈ ids2 ∧ z ≠ w ∧ z ∈ idsOf ts) := by
  induction l with
  | nil => intro ts z w; simp
  | cons x l ih =>
    intro ts z w
    simp only [List.foldl_cons]
    have hids : idsOf (ids2.foldl (fun acc2 y => applyPair acc2 x y) ts) = idsOf ts :=
      idsOf_eq_of_rawOf (foldl_rawOf _ (fun ts2 y => applyPair_rawOf ts2 x y) ids2 ts)
    rw [ih, mem_connOf_innerFold x ids2 ts z w, hids]
    simp only [List.mem_cons]
    constructor
    · rintro ((hw | ⟨rfl, hwm, hne, hid⟩) | ⟨hzl, hwm, hne, hid⟩)
      · exact Or.inl hw
      · exact Or.inr ⟨Or.inl rfl, hwm, hne, hid⟩
      · exact Or.inr ⟨Or.inr hzl, hwm, hne, hid⟩
    · rintro (hw | ⟨rfl | hzl, hwm, hne, hid⟩)
      · exact Or.inl (Or.inl hw)
      · exact Or.inl (Or.inr ⟨rfl, hwm, hne, hid⟩)
      · exact Or.inr ⟨hzl, hwm, hne, hid⟩

/-- Membership after processing one junction. -/
theorem mem_connOf_applyJunction (ts : List ATrace) (j : Junction) (z w : String) :
    w ∈ connOf (applyJunction ts j) z ↔
      w ∈ connOf ts z ∨
        (z ∈ j.traceIds ∧ w ∈ j.traceIds ∧ z ≠ w ∧ z ∈ idsOf ts) :=
  mem_connOf_outerFold j.traceIds j.traceIds ts z w

/-- Membership after the whole connectivity update: exactly the pairs
put together by some junction, added to what was already there. -/
theorem mem_connOf_update (js : List Junction) :
    ∀ (ts : List ATrace) (z w : String),
      w ∈ connOf (updateTraceConnectivity ts js) z ↔
        w ∈ connOf ts z ∨
          ((∃ j ∈ js, z ∈ j.traceIds ∧ w ∈ j.traceIds) ∧ z ≠ w ∧ z ∈ idsOf ts) := by
  induction js with
  | nil => intro ts z w; simp [updateTraceConnectivity]
  | cons j js ih =>
    intro ts z w
    have hstep : updateTraceConnectivity ts (j :: js) =
        updateTraceConnectivity (applyJunction ts j) js := rfl
    have hids : idsOf (applyJunction ts j) = idsOf ts :=
      idsOf_eq_of_rawOf (applyJunction_rawOf ts j)
    rw [hstep, ih, mem_connOf_applyJunction, hids]
    simp only [List.mem_cons, exists_eq_or_imp]
    constructor
    · rintro ((hw | ⟨hz, hwj, hne, hid⟩) | ⟨⟨j2, hj2, hz2, hw2⟩, hne, hid⟩)
      · exact Or.inl hw
      · exact Or.inr ⟨Or.inl ⟨hz, hwj⟩, hne, hid⟩
      · exact Or.inr ⟨Or.inr ⟨j2, hj2, hz2, hw2⟩, hne, hid⟩
    · rintro (hw | ⟨⟨hz, hwj⟩ | ⟨j2, hj2, hz2, hw2⟩, hne, hid⟩)
      · exact Or.inl (Or.inl hw)
      · exact Or.inl (Or.inr ⟨hz, hwj, hne, hid⟩)
      · exact Or.inr ⟨⟨j2, hj2, hz2, hw2⟩, hne, hid⟩

/-- pushIfAbsent keeps the connectivity list duplicate-free. -/
theorem nodup_pushIfAbsent (y : String) (t : ATrace)
    (h : t.connectedTraces.Nodup) : (pushIfAbsent y t).connectedTraces.Nodup := by
  unfold pushIfAbsent
  split
  · exact h
  · next hy => simp [List.nodup_append, h, hy]

/-- A per-trace property preserved by the update function is preserved
by updateFirst. -/
theorem forall_mem_updateFirst {P : ATrace → Prop} (x : String) (f : ATrace → ATrace)
    (hf : ∀ t, P t → P (f t)) :
    ∀ ts : List ATrace, (∀ t ∈ ts, P t) → ∀ t ∈ updateFirst x f ts, P t := by
  intro ts
  induction ts with
  | nil => intro h t ht; simp [updateFirst] at ht
  | cons t0 ts ih =>
    intro h t ht
    unfold updateFirst at ht
    split at ht
    · rcases List.mem_cons.mp ht with rfl | hmem
      · exact hf t0 (h t0 (by simp))
      · exact h t (List.mem_cons_of_mem _ hmem)
    · rcases List.mem_cons.mp ht with rfl | hmem
      · exact h t (by simp)
      · exact ih (fun t2 h2 => h t2 (List.mem_cons_of_mem _ h2)) t hmem

/-- A per-trace property preserved by each step is preserved by a fold. -/
theorem forall_mem_foldl {β : Type} {P : ATrace → Prop}
    (f : List ATrace → β → List ATrace)
    (hstep : ∀ ts b, (∀ t ∈ ts, P t) → ∀ t ∈ f ts b, P t) (l : List β) :
    ∀ ts : List ATrace, (∀ t ∈ ts, P t) → ∀ t ∈ l.foldl f ts, P t := by
  induction l with
  | nil => intro ts h; exact h
  | cons b l ih => intro ts h; exact ih (f ts b) (hstep ts b h)

/-- Duplicate-freeness of every connectivity list survives applyPair. -/
theorem nodupAll_applyPair (ts : List ATrace) (x y : String)
    (h : ∀ t ∈ ts, t.connectedTraces.Nodup) :
    ∀ t ∈ applyPair ts x y, t.connectedTraces.Nodup := by
  unfold applyPair
  split
  · exact forall_mem_updateFirst x _ (nodup_pushIfAbsent y) ts h
  · exact h

/-- Duplicate-freeness of every connectivity list survives the whole
connectivity update. -/
theorem nodupAll_update (ts : List ATrace) (js : List Junction)
    (h : ∀ t ∈ ts, t.connectedTraces.Nodup) :
    ∀ t ∈ updateTraceConnectivity ts js, t.connectedTraces.Nodup := by
  unfold updateTraceConnectivity
  refine forall_mem_foldl applyJunction ?_ js ts h
  intro ts2 j h2
  unfold applyJunction
  refine forall_mem_foldl _ ?_ j.traceIds ts2 h2
  intro ts3 x h3
  refine forall_mem_foldl _ ?_ j.traceIds ts3 h3
  intro ts4 y h4
  exact nodupAll_applyPair ts4 x y h4

/-- With pairwise-distinct ids, looking up a member's id finds exactly
that member. -/
theorem find?_eq_of_mem_of_nodup :
    ∀ ts : List ATrace, (idsOf ts).Nodup →
      ∀ A ∈ ts, ts.find? (fun t => t.id = A.id) = some A := by
  intro ts
  induction ts with
  | nil => intro _ A hA; simp at hA
  | cons t ts ih =>
    intro hnd A hA
    simp only [idsOf, List.map_cons, List.nodup_cons] at hnd
    rcases List.mem_cons.mp hA with rfl | hmem
    · rw [List.find?_cons_of_pos _ (by simp)]
    · by_cases ht : t.id = A.id
      · exact absurd (ht ▸ List.mem_map.mpr ⟨A, hmem, rfl⟩) hnd.1
      · rw [List.find?_cons_of_neg _ (by simpa using ht)]
        exact ih hnd.2 A hmem

/-- Enriched traces start with empty connectivity lists, so every
lookup sees the empty list. -/
theorem connOf_of_empty (ts : List ATrace)
    (h : ∀ t ∈ ts, t.connectedTraces = []) (z : String) : connOf ts z = [] := by
  unfold connOf
  cases hfind : ts.find? (fun t => t.id = z) with
  | none => rfl
  | some t =>
    simp only [Option.map_some', Option.getD_some]
    exact h t (List.mem_of_find?_eq_some hfind)

/-- Claim C2: after a run of the connectivity builder (junction
grouping followed by the connectivity update) on enriched traces with
pairwise-distinct ids, connectivity is symmetric and duplicate-free:
for all traces A and B of the result, A.id occurs in B's list exactly
when B.id occurs in A's, and no list contains a duplicate. -/
theorem c2_connectivity_symmetric_and_nodup (ts : List ATrace) (tol : Option ℚ)
    (hnd : (idsOf ts).Nodup) (hempty : ∀ t ∈ ts, t.connectedTraces = []) :
    (∀ A ∈ updateTraceConnectivity ts (findJunctions ts tol),
      ∀ B ∈ updateTraceConnectivity ts (findJunctions ts tol),
        (A.id ∈ B.connectedTraces ↔ B.id ∈ A.connectedTraces)) ∧
      ∀ A ∈ updateTraceConnectivity ts (findJunctions ts tol),
        A.connectedTraces.Nodup := by
  have hids : idsOf (updateTraceConnectivity ts (findJunctions ts tol)) = idsOf ts :=
    idsOf_eq_of_rawOf (updateTraceConnectivity_rawOf ts (findJunctions ts tol))
  constructor
  · intro A hA B hB
    have hndu : (idsOf (updateTraceConnectivity ts (findJunctions ts tol))).Nodup := by
      rw [hids]; exact hnd
    have hAid : A.id ∈ idsOf ts := by
      rw [← hids]
      exact List.mem_map.mpr ⟨A, hA, rfl⟩
    have hBid : B.id ∈ idsOf ts := by
      rw [← hids]
      exact List.mem_map.mpr ⟨B, hB, rfl⟩
    have hconnA : A.connectedTraces =
        connOf (updateTraceConnectivity ts (findJunctions ts tol)) A.id := by
      unfold connOf
      rw [find?_eq_of_mem_of_nodup _ hndu A hA]
      rfl
    have hconnB : B.connectedTraces =
        connOf (updateTraceConnectivity ts (findJunctions ts tol)) B.id := by
      unfold connOf
      rw [find?_eq_of_mem_of_nodup _ hndu B hB]
      rfl
    rw [hconnA, hconnB, mem_connOf_update, mem_connOf_update,
      connOf_of_empty ts hempty, connOf_of_empty ts hempty]
    simp only [List.not_mem_nil, false_or]
    constructor
    · rintro ⟨⟨j, hj, hz, hw⟩, hne, _⟩
      exact ⟨⟨j, hj, hw, hz⟩, hne.symm, hAid⟩
    · rintro ⟨⟨j, hj, hz, hw⟩, hne, _⟩
      exact ⟨⟨j, hj, hw, hz⟩, hne.symm, hBid⟩
  · refine nodupAll_update ts (findJunctions ts tol) ?_
    intro t ht
    rw [hempty t ht]
    exact List.nodup_nil

/-- Witness for C2: two traces meeting at (1,0) receive each other
symmetrically and without duplicates. -/
theorem c2_witness :
    (idsOf [analyzeTrace ⟨"t1", "M0,0 L1,0", 1⟩,
        analyzeTrace ⟨"t2", "M1,0 L2,0", 1⟩]).Nodup ∧
      (∀ t ∈ [analyzeTrace ⟨"t1", "M0,0 L1,0", 1⟩,
          analyzeTrace ⟨"t2", "M1,0 L2,0", 1⟩], t.connectedTraces = []) ∧
      ∀ A ∈ updateTraceConnectivity
          [analyzeTrace ⟨"t1", "M0,0 L1,0", 1⟩, analyzeTrace ⟨"t2", "M1,0 L2,0", 1⟩]
          (findJunctions
            [analyzeTrace ⟨"t1", "M0,0 L1,0", 1⟩, analyzeTrace ⟨"t2", "M1,0 L2,0", 1⟩]
            none),
        A.connectedTraces.Nodup :=
  ⟨by with_unfolding_all decide, by with_unfolding_all decide,
    (c2_connectivity_symmetric_and_nodup
      [analyzeTrace ⟨"t1", "M0,0 L1,0", 1⟩, analyzeTrace ⟨"t2", "M1,0 L2,0", 1⟩]
      none (by with_unfolding_all decide) (by with_unfolding_all decide)).2⟩

/-- A fold each of whose steps fixes the state is the identity. -/
theorem foldl_eq_of_id {β : Type} (f : List ATrace → β → List ATrace) (l : List β)
    (ts : List ATrace) (h : ∀ b ∈ l, f ts b = ts) : l.foldl f ts = ts := by
  induction l with
  | nil => rfl
  | cons b l ih =>
    simp only [List.foldl_cons, h b (by simp)]
    exact ih (fun b2 hb2 => h b2 (List.mem_cons_of_mem _ hb2))

/-- Processing a junction all of whose pairs are already recorded
changes nothing. -/
theorem applyJunction_eq_self (ts : List ATrace) (j : Junction)
    (h : ∀ x ∈ j.traceIds, ∀ y ∈ j.traceIds, x ≠ y →
      ∀ t, ts.find? (fun t => t.id = x) = some t → y ∈ t.connectedTraces) :
    applyJunction ts j = ts := by
  unfold applyJunction
  apply foldl_eq_of_id
  intro x hx
  apply foldl_eq_of_id
  intro y hy
  unfold applyPair
  split
  · next hxy =>
    apply updateFirst_of_fixed
    intro t hfind
    unfold pushIfAbsent
    rw [if_pos (h x hx y hy hxy t hfind)]
  · rfl

/-- Claim C9: the junction builder is idempotent.  Running junction
grouping plus the connectivity update a second time on the same
enriched trace set (without re-resolving) produces exactly the same
junction list — findJunctions reads only fields the update never
writes — and leaves every trace's connectedTraces unchanged: every
pair a junction would add is already present, so nothing is appended
twice. -/
theorem c9_junction_builder_idempotent (ts : List ATrace) (tol : Option ℚ) :
    findJunctions (updateTraceConnectivity ts (findJunctions ts tol)) tol =
        findJunctions ts tol ∧
      updateTraceConnectivity (updateTraceConnectivity ts (findJunctions ts tol))
          (findJunctions (updateTraceConnectivity ts (findJunctions ts tol)) tol) =
        updateTraceConnectivity ts (findJunctions ts tol) := by
  have h1 : findJunctions (updateTraceConnectivity ts (findJunctions ts tol)) tol =
      findJunctions ts tol :=
    findJunctions_congr _ _ tol (updateTraceConnectivity_rawOf ts (findJunctions ts tol))
  refine ⟨h1, ?_⟩
  rw [h1]
  have hids : idsOf (updateTraceConnectivity ts (findJunctions ts tol)) = idsOf ts :=
    idsOf_eq_of_rawOf (updateTraceConnectivity_rawOf ts (findJunctions ts tol))
  unfold updateTraceConnectivity
  apply foldl_eq_of_id
  intro j hj
  apply applyJunction_eq_self
  intro x hx y hy hxy t hfind
  have hconn : t.connectedTraces =
      connOf (updateTraceConnectivity ts (findJunctions ts tol)) x := by
    unfold connOf
    rw [show List.foldl applyJunction ts (findJunctions ts tol) =
      updateTraceConnectivity ts (findJunctions ts tol) from rfl] at hfind
    rw [hfind]
    rfl
  have hxid : x ∈ idsOf ts := by
    rw [← hids, mem_idsOf_iff_find?]
    rw [show List.foldl applyJunction ts (findJunctions ts tol) =
      updateTraceConnectivity ts (findJunctions ts tol) from rfl] at hfind
    rw [hfind]
    rfl
  rw [hconn, mem_connOf_update]
  exact Or.inr ⟨⟨j, hj, hx, hy⟩, hxy, hxid⟩

/-! ## Claim C7 -/

/-- jadd of ordinary numbers is ordinary. -/
theorem jadd_isSome (a b : JSNum) (ha : a.isSome) (hb : b.isSome) :
    (jadd a b).isSome := by
  cases a with
  | none => simp at ha
  | some q =>
    cases b with
    | none => simp at hb
    | some r => rfl

/-- Subtracting the first summand recovers the second. -/
theorem jsub_jadd (a b : JSNum) (ha : a.isSome) (hb : b.isSome) :
    jsub (jadd a b) a = b := by
  cases a with
  | none => simp at ha
  | some q =>
    cases b with
    | none => simp at hb
    | some r =>
      simp only [jadd, jsub, Option.some.injEq]
      ring

/-- An ordinary number minus itself is zero. -/
theorem jsub_self (a : JSNum) (ha : a.isSome) : jsub a a = some 0 := by
  cases a with
  | none => simp at ha
  | some q => simp [jsub]

/-- The default-carrying last element of an appended list. -/
theorem getLastD_append (l1 l2 : List Point) :
    ∀ d : Point, (l1 ++ l2).getLastD d = l2.getLastD (l1.getLastD d) := by
  induction l1 with
  | nil => intro d; rfl
  | cons p l1 ih =>
    intro d
    rw [List.cons_append, List.getLastD_cons, List.getLastD_cons, ih]

/-- Delta-matching is compositional: a block whose differences match
from the running previous point extends a matching prefix. -/
theorem DiffsMatch_append :
    ∀ (a1 : List (Option Point)) (l1 : List Point) (prev : Point)
      (a2 : List (Option Point)) (l2 : List Point),
      DiffsMatch a1 prev l1 → DiffsMatch a2 (l1.getLastD prev) l2 →
      DiffsMatch (a1 ++ a2) prev (l1 ++ l2) := by
  intro a1
  induction a1 with
  | nil =>
    intro l1 prev a2 l2 h1 h2
    cases l1 with
    | nil => exact h2
    | cons p ps => exact h1.elim
  | cons od ods ih =>
    intro l1 prev a2 l2 h1 h2
    cases l1 with
    | nil => cases od <;> exact h1.elim
    | cons p ps =>
      rw [List.getLastD_cons] at h2
      cases od with
      | none =>
        show DiffsMatch (ods ++ a2) p (ps ++ l2)
        exact ih ps p a2 l2 h1 h2
      | some d =>
        obtain ⟨hx, hy, h3⟩ := h1
        exact ⟨hx, hy, ih ps p a2 l2 h3 h2⟩

/-- Flattening commands takes one command's points at a time. -/
theorem getPointsFromCommands_cons (c : PathCommand) (cs : List PathCommand) :
    getPointsFromCommands (c :: cs) = c.points ++ getPointsFromCommands cs := by
  have haux : ∀ (l : List PathCommand) (acc : List Point),
      l.foldl (fun ps c2 => ps ++ c2.points) acc =
        acc ++ l.foldl (fun ps c2 => ps ++ c2.points) [] := by
    intro l
    induction l with
    | nil => intro acc; simp
    | cons c2 l ih =>
      intro acc
      simp only [List.foldl_cons, List.nil_append]
      rw [ih (acc ++ c2.points), ih c2.points, List.append_assoc]
  unfold getPointsFromCommands
  simp only [List.foldl_cons, List.nil_append]
  exact haux cs c.points

/-- The M/L loop: every emitted point differs from its predecessor by
the raw parameter when relative, the final cursor is the last emitted
point, and validity is preserved. -/
theorem lineLoop_spec (rel : Bool) :
    ∀ (pts : List Point) (cx cy : JSNum), cx.isSome → cy.isSome →
      (∀ p ∈ pts, p.x.isSome ∧ p.y.isSome) →
      DiffsMatch (pts.map (fun p => if rel then some p else none)) ⟨cx, cy⟩
          (lineLoop rel cx cy pts).1 ∧
        (lineLoop rel cx cy pts).1.getLastD ⟨cx, cy⟩ =
          ⟨(lineLoop rel cx cy pts).2.1, (lineLoop rel cx cy pts).2.2⟩ ∧
        (lineLoop rel cx cy pts).2.1.isSome ∧ (lineLoop rel cx cy pts).2.2.isSome := by
  intro pts
  induction pts with
  | nil =>
    intro cx cy hcx hcy hp
    exact ⟨trivial, rfl, hcx, hcy⟩
  | cons p pts ih =>
    intro cx cy hcx hcy hp
    have hpx := (hp p (by simp)).1
    have hpy := (hp p (by simp)).2
    have hrest : ∀ q ∈ pts, q.x.isSome ∧ q.y.isSome :=
      fun q hq => hp q (List.mem_cons_of_mem _ hq)
    cases rel with
    | true =>
      have hx : (jadd cx p.x).isSome := jadd_isSome cx p.x hcx hpx
      have hy : (jadd cy p.y).isSome := jadd_isSome cy p.y hcy hpy
      have ih2 := ih (jadd cx p.x) (jadd cy p.y) hx hy hrest
      simp only [lineLoop, List.map_cons, if_true]
      refine ⟨⟨jsub_jadd cx p.x hcx hpx, jsub_jadd cy p.y hcy hpy, ih2.1⟩, ?_, ih2.2.2⟩
      rw [List.getLastD_cons]
      exact ih2.2.1
    | false =>
      have ih2 := ih p.x p.y hpx hpy hrest
      simp only [lineLoop, List.map_cons, if_false]
      refine ⟨ih2.1, ?_, ih2.2.2⟩
      rw [List.getLastD_cons]
      exact ih2.2.1

/-- The H loop: every emitted point moves horizontally by the raw x
parameter when relative (its y difference is zero), the final cursor x
is the last emitted x, and validity is preserved. -/
theorem hLoop_spec (rel : Bool) :
    ∀ (pts : List Point) (cx cy : JSNum), cx.isSome → cy.isSome →
      (∀ p ∈ pts, p.x.isSome) →
      DiffsMatch (pts.map (fun p => if rel then some ⟨p.x, some 0⟩ else none)) ⟨cx, cy⟩
          (hLoop rel cx cy pts).1 ∧
        (hLoop rel cx cy pts).1.getLastD ⟨cx, cy⟩ = ⟨(hLoop rel cx cy pts).2, cy⟩ ∧
        (hLoop rel cx cy pts).2.isSome := by
  intro pts
  induction pts with
  | nil =>
    intro cx cy hcx hcy hp
    exact ⟨trivial, rfl, hcx⟩
  | cons p pts ih =>
    intro cx cy hcx hcy hp
    have hpx := hp p (by simp)
    have hrest : ∀ q ∈ pts, q.x.isSome := fun q hq => hp q (List.mem_cons_of_mem _ hq)
    cases rel with
    | true =>
      have hx : (jadd cx p.x).isSome := jadd_isSome cx p.x hcx hpx
      have ih2 := ih (jadd cx p.x) cy hx hcy hrest
      simp only [hLoop, List.map_cons, if_true]
      refine ⟨⟨jsub_jadd cx p.x hcx hpx, jsub_self cy hcy, ih2.1⟩, ?_, ih2.2.2⟩
      rw [List.getLastD_cons]
      exact ih2.2.1
    | false =>
      have ih2 := ih p.x cy hpx hcy hrest
      simp only [hLoop, List.map_cons, if_false]
      refine ⟨ih2.1, ?_, ih2.2.2⟩
      rw [List.getLastD_cons]
      exact ih2.2.1

/-- The V loop, symmetric to the H loop. -/
theorem vLoop_spec (rel : Bool) :
    ∀ (pts : List Point) (cx cy : JSNum), cx.isSome → cy.isSome →
      (∀ p ∈ pts, p.y.isSome) →
      DiffsMatch (pts.map (fun p => if rel then some ⟨some 0, p.y⟩ else none)) ⟨cx, cy⟩
          (vLoop rel cx cy pts).1 ∧
        (vLoop rel cx cy pts).1.getLastD ⟨cx, cy⟩ = ⟨cx, (vLoop rel cx cy pts).2⟩ ∧
        (vLoop rel cx cy pts).2.isSome := by
  intro pts
  induction pts with
  | nil =>
    intro cx cy hcx hcy hp
    exact ⟨trivial, rfl, hcy⟩
  | cons p pts ih =>
    intro cx cy hcx hcy hp
    have hpy := hp p (by simp)
    have hrest : ∀ q ∈ pts, q.y.isSome := fun q hq => hp q (List.mem_cons_of_mem _ hq)
    cases rel with
    | true =>
      have hy : (jadd cy p.y).isSome := jadd_isSome cy p.y hcy hpy
      have ih2 := ih cx (jadd cy p.y) hcx hy hrest
      simp only [vLoop, List.map_cons, if_true]
      refine ⟨⟨jsub_self cx hcx, jsub_jadd cy p.y hcy hpy, ih2.1⟩, ?_, ih2.2.2⟩
      rw [List.getLastD_cons]
      exact ih2.2.1
    | false =>
      have ih2 := ih cx p.y hcx hpy hrest
      simp only [vLoop, List.map_cons, if_false]
      refine ⟨ih2.1, ?_, ih2.2.2⟩
      rw [List.getLastD_cons]
      exact ih2.2.1

/-- One resolution step realizes the claimed relative displacements of
its command, ends with the cursor on its last emitted point (or
unmoved), and keeps the state valid. -/
theorem resolveCmd_diffs (st : ResSt) (c : PathCommand)
    (hst : validSt st)
    (htype : c.type.toUpper ∈ (['M','L','H','V','Z'] : List Char))
    (hpts : ∀ p ∈ c.points, p.x.isSome ∧ p.y.isSome) :
    DiffsMatch (relDeltasOf c) ⟨st.currentX, st.currentY⟩ (resolveCmd st c).1.points ∧
      (resolveCmd st c).1.points.getLastD ⟨st.currentX, st.currentY⟩ =
        ⟨(resolveCmd st c).2.currentX, (resolveCmd st c).2.currentY⟩ ∧
      validSt (resolveCmd st c).2 := by
  obtain ⟨h1, h2, h3, h4⟩ := hst
  simp only [List.mem_cons, List.not_mem_nil, or_false] at htype
  rcases htype with hM | hL | hH | hV | hZ
  · cases hp : c.points with
    | nil =>
      have hshape : resolveCmd st c = (⟨c.type, [], false⟩, st) := by
        unfold resolveCmd
        rw [hM, hp]
        rfl
      have hrd : relDeltasOf c = [] := by
        unfold relDeltasOf
        rw [hM, hp]
        rfl
      rw [hshape, hrd]
      exact ⟨trivial, rfl, h1, h2, h3, h4⟩
    | cons p ps =>
      have hvpts : ∀ q ∈ p :: ps, q.x.isSome ∧ q.y.isSome := by
        rw [← hp]; exact hpts
      have hlu := lineLoop_spec c.isRelative (p :: ps) st.currentX st.currentY h1 h2 hvpts
      have hx : (if c.isRelative = true then jadd st.currentX p.x else p.x).isSome := by
        split
        · exact jadd_isSome _ _ h1 (hvpts p (by simp)).1
        · exact (hvpts p (by simp)).1
      have hy : (if c.isRelative = true then jadd st.currentY p.y else p.y).isSome := by
        split
        · exact jadd_isSome _ _ h2 (hvpts p (by simp)).2
        · exact (hvpts p (by simp)).2
      have hshape : resolveCmd st c =
          (⟨c.type, (lineLoop c.isRelative st.currentX st.currentY (p :: ps)).1, false⟩,
            ⟨(lineLoop c.isRelative st.currentX st.currentY (p :: ps)).2.1,
              (lineLoop c.isRelative st.currentX st.currentY (p :: ps)).2.2,
              (if c.isRelative = true then jadd st.currentX p.x else p.x),
              (if c.isRelative = true then jadd st.currentY p.y else p.y)⟩) := by
        unfold resolveCmd
        rw [hM, hp]
        rfl
      have hrd : relDeltasOf c =
          (p :: ps).map (fun q => if c.isRelative then some q else none) := by
        unfold relDeltasOf
        rw [hM, hp]
        rfl
      rw [hshape, hrd]
      exact ⟨hlu.1, hlu.2.1, hlu.2.2.1, hlu.2.2.2, hx, hy⟩
  · have hshape : resolveCmd st c =
        (⟨c.type, (lineLoop c.isRelative st.currentX st.currentY c.points).1, false⟩,
          ⟨(lineLoop c.isRelative st.currentX st.currentY c.points).2.1,
            (lineLoop c.isRelative st.currentX st.currentY c.points).2.2,
            st.subpathStartX, st.subpathStartY⟩) := by
      unfold resolveCmd
      rw [hL]
      rfl
    have hrd : relDeltasOf c =
        c.points.map (fun q => if c.isRelative then some q else none) := by
      unfold relDeltasOf
      rw [hL]
      rfl
    have hlu := lineLoop_spec c.isRelative c.points st.currentX st.currentY h1 h2 hpts
    rw [hshape, hrd]
    exact ⟨hlu.1, hlu.2.1, hlu.2.2.1, hlu.2.2.2, h3, h4⟩
  · have hshape : resolveCmd st c =
        (⟨c.type, (hLoop c.isRelative st.currentX st.currentY c.points).1, false⟩,
          ⟨(hLoop c.isRelative st.currentX st.currentY c.points).2, st.currentY,
            st.subpathStartX, st.subpathStartY⟩) := by
      unfold resolveCmd
      rw [hH]
      rfl
    have hrd : relDeltasOf c =
        c.points.map (fun q => if c.isRelative then some ⟨q.x, some 0⟩ else none) := by
      unfold relDeltasOf
      rw [hH]
      rfl
    have hlu := hLoop_spec c.isRelative c.points st.currentX st.currentY h1 h2
      (fun q hq => (hpts q hq).1)
    rw [hshape, hrd]
    exact ⟨hlu.1, hlu.2.1, hlu.2.2, h2, h3, h4⟩
  · have hshape : resolveCmd st c =
        (⟨c.type, (vLoop c.isRelative st.currentX st.currentY c.points).1, false⟩,
          ⟨st.currentX, (vLoop c.isRelative st.currentX st.currentY c.points).2,
            st.subpathStartX, st.subpathStartY⟩) := by
      unfold resolveCmd
      rw [hV]
      rfl
    have hrd : relDeltasOf c =
        c.points.map (fun q => if c.isRelative then some ⟨some 0, q.y⟩ else none) := by
      unfold relDeltasOf
      rw [hV]
      rfl
    have hlu := vLoop_spec c.isRelative c.points st.currentX st.currentY h1 h2
      (fun q hq => (hpts q hq).2)
    rw [hshape, hrd]
    exact ⟨hlu.1, hlu.2.1, h1, hlu.2.2, h3, h4⟩
  · have hshape : resolveCmd st c =
        (⟨c.type, [⟨st.subpathStartX, st.subpathStartY⟩], false⟩,
          ⟨st.subpathStartX, st.subpathStartY, st.subpathStartX, st.subpathStartY⟩) := by
      unfold resolveCmd
      rw [hZ]
      rfl
    have hrd : relDeltasOf c = [none] := by
      unfold relDeltasOf
      rw [hZ]
      rfl
    rw [hshape, hrd]
    exact ⟨trivial, rfl, h3, h4, h3, h4⟩

/-- Resolving a whole command list realizes every claimed relative
displacement across the flattened point sequence. -/
theorem resolveFrom_diffs :
    ∀ (cs : List PathCommand) (st : ResSt), validSt st →
      (∀ c ∈ cs, c.type.toUpper ∈ (['M','L','H','V','Z'] : List Char)) →
      (∀ c ∈ cs, ∀ p ∈ c.points, p.x.isSome ∧ p.y.isSome) →
      DiffsMatch (relDeltas cs) ⟨st.currentX, st.currentY⟩
          (getPointsFromCommands (resolveFrom st cs)) ∧
        (getPointsFromCommands (resolveFrom st cs)).getLastD ⟨st.currentX, st.currentY⟩ =
          ⟨(stepsSt st cs).currentX, (stepsSt st cs).currentY⟩ ∧
        validSt (stepsSt st cs) := by
  intro cs
  induction cs with
  | nil =>
    intro st hst ht hp
    exact ⟨trivial, rfl, hst⟩
  | cons c cs ih =>
    intro st hst ht hp
    have hcd := resolveCmd_diffs st c hst (ht c (by simp)) (hp c (by simp))
    have ih2 := ih (stepSt st c) hcd.2.2
      (fun c2 h2 => ht c2 (List.mem_cons_of_mem _ h2))
      (fun c2 h2 => hp c2 (List.mem_cons_of_mem _ h2))
    have hrf : resolveFrom st (c :: cs) =
        (resolveCmd st c).1 :: resolveFrom (stepSt st c) cs := rfl
    have hrd : relDeltas (c :: cs) = relDeltasOf c ++ relDeltas cs := by
      simp [relDeltas]
    have hstep : stepsSt st (c :: cs) = stepsSt (stepSt st c) cs := rfl
    rw [hrf, getPointsFromCommands_cons, hrd, hstep]
    refine ⟨?_, ?_, ih2.2.2⟩
    · apply DiffsMatch_append _ _ _ _ _ hcd.1
      rw [hcd.2.1]
      exact ih2.1
    · rw [getLastD_append, hcd.2.1]
      exact ih2.2.1

/-- Claim C7: for a path string that parses to only the supported
letters M, L, H, V, Z (either case) with no NaN parameter (the validity
condition of the spec), resolving the parsed commands and then taking
differences of consecutive absolute points — with the origin before the
first — reproduces every original relative delta: the raw pair for a
relative M or L point, (param, 0) for a relative H parameter and
(0, param) for a relative V parameter. -/
theorem c7_relative_roundtrip (s : String)
    (htype : ∀ c ∈ parsePathCommands s,
      c.type.toUpper ∈ (['M','L','H','V','Z'] : List Char))
    (hvalid : ∀ c ∈ parsePathCommands s, ∀ p ∈ c.points, p.x.isSome ∧ p.y.isSome) :
    DiffsMatch (relDeltas (parsePathCommands s)) originPoint
      (getPointsFromCommands (convertToAbsoluteCoordinates (parsePathCommands s))) :=
  (resolveFrom_diffs (parsePathCommands s) initResSt ⟨rfl, rfl, rfl, rfl⟩ htype hvalid).1

/-- Witness for C7 on a path exercising all supported relative
commands. -/
theorem c7_witness :
    (∀ c ∈ parsePathCommands "m1,2 l3,4 h5 v6 z",
        c.type.toUpper ∈ (['M','L','H','V','Z'] : List Char)) ∧
      (∀ c ∈ parsePathCommands "m1,2 l3,4 h5 v6 z",
        ∀ p ∈ c.points, p.x.isSome ∧ p.y.isSome) ∧
      DiffsMatch (relDeltas (parsePathCommands "m1,2 l3,4 h5 v6 z")) originPoint
        (getPointsFromCommands
          (convertToAbsoluteCoordinates (parsePathCommands "m1,2 l3,4 h5 v6 z"))) :=
  ⟨by with_unfolding_all decide, by with_unfolding_all decide,
    c7_relative_roundtrip "m1,2 l3,4 h5 v6 z"
      (by with_unfolding_all decide) (by with_unfolding_all decide)⟩
